import Mathlib

/-!
Verification of the namespaced storage layer of `GcsPipelineStorage`
(`graphrag/index/storage/gcs_pipeline_storage.py`).

Python strings are embedded as lists of characters (`PyStr`).  The key
translation `_keyname` uses Python's `pathlib.Path`, so we model the posix
path parsing, joining and printing that `str(Path(p) / k)` performs:
a path is a root marker (`""`, `"/"` or `"//"`) plus a list of segments,
where parsing splits on `"/"` and discards empty segments and `"."`
segments, and a path beginning with exactly two slashes keeps the double
root.  Compiled regular expressions, backend fetch/write/decode calls and
the object listing are parameters of the corresponding functions, so the
control flow of the Python methods is translated exactly while the
collaborators stay abstract.
-/

set_option linter.unusedVariables false

namespace GcsStorage

/-- A Python `str`, embedded as its list of characters. -/
abbrev PyStr := List Char

/-- Python `s.split("/")` (used through `pathlib` parsing): the list of
chunks between separators, keeping empty chunks. -/
def splitSep : PyStr → List PyStr
  | [] => [[]]
  | c :: rest =>
    if c = '/' then [] :: splitSep rest
    else
      match splitSep rest with
      | [] => [[c]]
      | t :: ts => (c :: t) :: ts

/-- The segment list of `pathlib.PurePosixPath(s)`: split on `"/"` and drop
empty segments and `"."` segments. -/
def parseParts (s : PyStr) : List PyStr :=
  (splitSep s).filter (fun t => decide (t ≠ [] ∧ t ≠ (['.'] : PyStr)))

/-- The root of `pathlib.PurePosixPath(s)`: `0` for a relative path, `2` when
the path starts with exactly two slashes (posix keeps `"//"`), else `1`. -/
def parseRoot (s : PyStr) : Nat :=
  if s.take 1 = (['/'] : PyStr) then
    if s.take 2 = (['/', '/'] : PyStr) ∧ s.take 3 ≠ (['/', '/', '/'] : PyStr) then 2 else 1
  else 0

/-- The parsed form of a `pathlib` posix path: root marker and segments. -/
structure PyPath where
  root : Nat
  parts : List PyStr
deriving DecidableEq

/-- `pathlib.PurePosixPath(s)`, parsed. -/
def parsePath (s : PyStr) : PyPath :=
  ⟨parseRoot s, parseParts s⟩

/-- The characters printed for a root marker. -/
def rootChars : Nat → PyStr
  | 0 => []
  | 1 => ['/']
  | _ => ['/', '/']

/-- Segments joined with `"/"` between them. -/
def interparts : List PyStr → PyStr
  | [] => []
  | a :: rest =>
    match rest with
    | [] => a
    | _ :: _ => a ++ '/' :: interparts rest

/-- `str(path)` for a parsed posix path: `"."` for the empty relative path,
otherwise the root characters followed by the joined segments. -/
def pathStr (p : PyPath) : PyStr :=
  if p.root = 0 ∧ p.parts = [] then ['.']
  else rootChars p.root ++ interparts p.parts

/-- `Path.__truediv__`: joining keeps the left path unless the right side is
absolute, in which case the right side replaces it. -/
def pyJoin (p q : PyPath) : PyPath :=
  if q.root = 0 then ⟨p.root, p.parts ++ q.parts⟩ else q

/-- `GcsPipelineStorage._keyname`: `str(Path(self._path_prefix) / key)`. -/
def keyname (pfx key : PyStr) : PyStr :=
  pathStr (pyJoin (parsePath pfx) (parsePath key))

/-- The local `blobname` helper of `find`: strip the raw path prefix once if
the name starts with it (Python `replace(prefix, "", 1)` on a checked
startswith is a drop of the prefix length), then strip one leading `"/"`. -/
def blobname (pfx s : PyStr) : PyStr :=
  let s1 := if pfx.isPrefixOf s then s.drop pfx.length else s
  if (['/'] : PyStr).isPrefixOf s1 then s1.drop 1 else s1

/-- Python `x or default` for an optional string argument: `None` and the
empty string both fall back to the default. -/
def pyOrStr (o : Option PyStr) (d : PyStr) : PyStr :=
  match o with
  | none => d
  | some s => if s = [] then d else s

/-- A `match.groupdict()`: named capture groups in declaration order. -/
abbrev Groups := List (PyStr × PyStr)

/-- A compiled `re.Pattern` used through `pattern.match(name)`: `none` when
the anchored match fails, otherwise the captured group dictionary. -/
abbrev Pattern := PyStr → Option Groups

/-- The `file_filter` dict: each field name paired with the truth value of
`re.match(value, ·)` for its filter pattern. -/
abbrev FieldFilter := List (PyStr × (PyStr → Bool))

/-- Python `item[key]` on a groupdict: `none` models a raised `KeyError`. -/
def lookupGroup (item : Groups) (k : PyStr) : Option PyStr :=
  match item.find? (fun kv => kv.1 == k) with
  | some kv => some kv.2
  | none => none

/-- The generator consumed by `all(re.match(value, item[key]) for key, value
in file_filter.items())`: pairs are checked in dict order, a failed lookup
raises (`Except.error`), and a falsy match short-circuits to `false` without
touching later pairs. -/
def itemFilterGo (item : Groups) : FieldFilter → Except Unit Bool
  | [] => Except.ok true
  | (k, pr) :: rest =>
    match lookupGroup item k with
    | none => Except.error ()
    | some v => if pr v then itemFilterGo item rest else Except.ok false

/-- The local `item_filter` helper of `find`. -/
def item_filter (ff : Option FieldFilter) (item : Groups) : Except Unit Bool :=
  match ff with
  | none => Except.ok true
  | some fs => itemFilterGo item fs

/-- The `datashaper` `Progress` record built by `_create_progress_status`. -/
structure Progress where
  total_items : Nat
  completed_items : Nat
  description : PyStr
deriving DecidableEq

/-- Decimal digits of a number, for the f-string in the description. -/
def natChars (n : Nat) : PyStr :=
  Nat.toDigits 10 n

/-- `_create_progress_status(num_loaded, num_filtered, num_total)`. -/
def create_progress_status (num_loaded num_filtered num_total : Nat) : Progress :=
  ⟨num_total, num_loaded + num_filtered,
    natChars num_loaded ++ (" files loaded (".toList) ++ natChars num_filtered
      ++ (" filtered)".toList)⟩

/-- The exception classes that can escape `find`: a backend failure raised by
`list_blobs`, or the `KeyError` raised by `item_filter`. -/
inductive FindErr where
  | backendError : FindErr
  | keyError : FindErr
deriving DecidableEq

/-- What one `find` generator produces for its consumer: the yielded pairs in
order, the progress statuses handed to a supplied progress sink in order, and
the exception terminating the enumeration, if any. -/
structure FindOutput where
  yields : List (PyStr × Groups)
  events : List Progress
  err : Option FindErr
deriving DecidableEq

/-- The `if progress is not None: progress(...)` call at the end of the loop
body: one emitted status when a sink is supplied, none otherwise. -/
def progEmit (prog : Bool) (numLoaded numFiltered numTotal : Nat) : List Progress :=
  if prog then [create_progress_status numLoaded numFiltered numTotal] else []

/-- The `for blob in all_blobs` loop of `find`, carrying `num_loaded` and
`num_filtered`.  A candidate is yielded when the anchored pattern match
succeeds, the name starts with `base_dir` and `item_filter` accepts the
groupdict; the loop breaks right after a yield once `max_count > 0` matches
are loaded (before the progress call), and a `KeyError` from `item_filter`
terminates the generator with an error after the earlier yields. -/
def findGo (pat : Pattern) (bdS pfx : PyStr) (ff : Option FieldFilter)
    (maxCount : Int) (numTotal : Nat) (prog : Bool) :
    List PyStr → Nat → Nat → FindOutput
  | [], _, _ => ⟨[], [], none⟩
  | b :: rest, numLoaded, numFiltered =>
    match pat b, bdS.isPrefixOf b with
    | some g, true =>
      match item_filter ff g with
      | Except.error _ => ⟨[], [], some FindErr.keyError⟩
      | Except.ok true =>
        if 0 < maxCount ∧ maxCount ≤ ((numLoaded + 1 : Nat) : Int) then
          ⟨[(blobname pfx b, g)], [], none⟩
        else
          let r := findGo pat bdS pfx ff maxCount numTotal prog rest (numLoaded + 1) numFiltered
          ⟨(blobname pfx b, g) :: r.yields,
            progEmit prog (numLoaded + 1) numFiltered numTotal ++ r.events, r.err⟩
      | Except.ok false =>
        let r := findGo pat bdS pfx ff maxCount numTotal prog rest numLoaded (numFiltered + 1)
        ⟨r.yields, progEmit prog numLoaded (numFiltered + 1) numTotal ++ r.events, r.err⟩
    | some _, false =>
      let r := findGo pat bdS pfx ff maxCount numTotal prog rest numLoaded (numFiltered + 1)
      ⟨r.yields, progEmit prog numLoaded (numFiltered + 1) numTotal ++ r.events, r.err⟩
    | none, _ =>
      let r := findGo pat bdS pfx ff maxCount numTotal prog rest numLoaded (numFiltered + 1)
      ⟨r.yields, progEmit prog numLoaded (numFiltered + 1) numTotal ++ r.events, r.err⟩

/-- `GcsPipelineStorage.find`.  `base_dir = base_dir or ""`; the candidate
listing is requested from the backend with `prefix=base_dir` (`listing` is
the backend's response function, `Except.error` a raised backend exception,
re-raised by the `except` block before anything is yielded);
`num_total = len(all_blobs)`. -/
def find (pfx : PyStr) (pat : Pattern) (bd : Option PyStr) (prog : Bool)
    (ff : Option FieldFilter) (maxCount : Int)
    (listing : PyStr → Except Unit (List PyStr)) : FindOutput :=
  let baseDir := pyOrStr bd []
  match listing baseDir with
  | Except.error _ => ⟨[], [], some FindErr.backendError⟩
  | Except.ok blobs => findGo pat baseDir pfx ff maxCount blobs.length prog blobs 0 0

/-- `self._encoding = encoding or "utf-8"` in `__init__`: the namespace
default text encoding. -/
def initEncoding (encoding : Option PyStr) : PyStr :=
  pyOrStr encoding ("utf-8".toList)

/-- `GcsPipelineStorage.get`.  `fetch` is `blob.download_as_bytes` at the
resolved key (`Except.error` a raised backend exception), `decode` is
`bytes.decode(coding)` (`Except.error` a raised `UnicodeDecodeError`); the
`except` block turns any failure into `None`.  The decode step uses
`coding = encoding or "utf-8"` — the namespace default `self._encoding`
(`nsEncoding`) is not consulted. -/
def get (fetch : PyStr → Except Unit PyStr) (decode : PyStr → PyStr → Except Unit PyStr)
    (pfx nsEncoding k : PyStr) (asBytes : Bool) (encoding : Option PyStr) : Option PyStr :=
  match fetch (keyname pfx k) with
  | Except.error _ => none
  | Except.ok blobData =>
    if asBytes then some blobData
    else
      match decode (pyOrStr encoding ("utf-8".toList)) blobData with
      | Except.error _ => none
      | Except.ok text => some text

/-- `GcsPipelineStorage.set`.  `write` is `blob.upload_from_string` at the
resolved key (`Except.error` a raised backend exception) and `encode` is
`value.encode(coding)`; a bytes value (`Sum.inl`) is uploaded as is, a text
value (`Sum.inr`) is encoded with `encoding or "utf-8"` first.  The
`except Exception` clause logs and swallows every failure, so `set` always
returns `None` and no exception escapes. -/
def set (write : PyStr → PyStr → Except Unit Unit) (encode : PyStr → PyStr → PyStr)
    (pfx k : PyStr) (value : PyStr ⊕ PyStr) (encoding : Option PyStr) : Option Unit :=
  let payload :=
    match value with
    | Sum.inl bytes => bytes
    | Sum.inr text => encode (pyOrStr encoding ("utf-8".toList)) text
  match write (keyname pfx k) payload with
  | Except.ok _ => none
  | Except.error _ => none

/-- Modelled from the spec: the backend `list(prefix)` primitive of §6 is the
GCS `bucket.list_blobs(prefix=...)` call, which returns exactly the stored
object names having `prefix` as a raw string prefix, in listing order.  The
bucket contents are the list `store` of object names. -/
def listBlobs (store : List PyStr) (pfx : PyStr) : List PyStr :=
  store.filter (fun b => pfx.isPrefixOf b)

/-- The object names deleted by `GcsPipelineStorage.clear`: it lists with
`prefix=self._path_prefix` and deletes each returned blob. -/
def clearDeleted (pfx : PyStr) (store : List PyStr) : List PyStr :=
  listBlobs store pfx

/-- The object names remaining in the bucket after `clear()` runs. -/
def clearRemaining (pfx : PyStr) (store : List PyStr) : List PyStr :=
  store.filter (fun b => !(pfx.isPrefixOf b))

/-- An ASCII decimal digit, for `\d` on the concrete inputs considered. -/
def isAsciiDigit (c : Char) : Bool :=
  decide ('0' ≤ c ∧ c ≤ '9')

/-- `re.compile(r"(?P<year>\d{4})\.json$").match(s)`: anchored at the start,
the string must be four digits, then `".json"`, then the end of the string
(`$` also accepts a single trailing newline); on success the named group
`year` holds the four digits. -/
def matchYearJson : Pattern := fun s =>
  match s with
  | d1 :: d2 :: d3 :: d4 :: rest =>
    if isAsciiDigit d1 && isAsciiDigit d2 && isAsciiDigit d3 && isAsciiDigit d4
        && (rest == (".json".toList) || rest == (".json".toList ++ ['\n'])) then
      some [(("year".toList), [d1, d2, d3, d4])]
    else none
  | _ => none

/-- `re.compile(r"out/(?P<year>\d{4})\.json$").match(s)`: like
`matchYearJson` but with the literal `out/` in front. -/
def matchOutYearJson : Pattern := fun s =>
  match s with
  | 'o' :: 'u' :: 't' :: '/' :: d1 :: d2 :: d3 :: d4 :: rest =>
    if isAsciiDigit d1 && isAsciiDigit d2 && isAsciiDigit d3 && isAsciiDigit d4
        && (rest == (".json".toList) || rest == (".json".toList ++ ['\n'])) then
      some [(("year".toList), [d1, d2, d3, d4])]
    else none
  | _ => none

/-- The candidate listing of the spec's `find` example: the backend answers
every prefix request with the three fixed blob names. -/
def exampleListing : PyStr → Except Unit (List PyStr) := fun _ =>
  Except.ok [("out/2021.json".toList), ("out/2022.json".toList), ("out/notes.txt".toList)]

/-- `[start, start + 1, ..., start + len - 1]`, the expected sequence of
`completed_items` values across the progress statuses of one `find` run. -/
def natsFrom (start : Nat) : Nat → List Nat
  | 0 => []
  | n + 1 => start :: natsFrom (start + 1) n

/-! ### Helper lemmas on character lists -/

theorem isPrefixOf_append_self (p t : PyStr) : p.isPrefixOf (p ++ t) = true := by
  induction p with
  | nil => simp [List.isPrefixOf]
  | cons a as ih => simp [List.isPrefixOf, ih]

theorem isPrefixOf_of_isPrefixOf_le (s : PyStr) :
    ∀ p q : PyStr, p.isPrefixOf s = true → q.isPrefixOf s = true →
      p.length ≤ q.length → p.isPrefixOf q = true := by
  induction s with
  | nil =>
    intro p q hp _ _
    cases p with
    | nil => simp [List.isPrefixOf]
    | cons a as => simp [List.isPrefixOf] at hp
  | cons c s ih =>
    intro p q hp hq hl
    cases p with
    | nil => simp [List.isPrefixOf]
    | cons a as =>
      cases q with
      | nil => simp at hl
      | cons b bs =>
        simp only [List.isPrefixOf, Bool.and_eq_true, beq_iff_eq] at hp hq ⊢
        obtain ⟨ha, hp2⟩ := hp
        obtain ⟨hb, hq2⟩ := hq
        subst ha
        subst hb
        exact ⟨rfl, ih as bs hp2 hq2 (by simpa using hl)⟩

theorem isPrefixOf_of_append_sep (p q k : PyStr)
    (h : p.isPrefixOf ((q ++ ['/']) ++ k) = true) :
    p.isPrefixOf q = true ∨ (q ++ ['/']).isPrefixOf p = true := by
  by_cases hl : p.length ≤ q.length
  · left
    refine isPrefixOf_of_isPrefixOf_le _ p q h ?_ hl
    rw [List.append_assoc]
    exact isPrefixOf_append_self _ _
  · right
    refine isPrefixOf_of_isPrefixOf_le _ _ p ?_ h ?_
    · exact isPrefixOf_append_self _ _
    · simp only [List.length_append, List.length_singleton]
      omega

theorem interparts_cons_cons (a b : PyStr) (rest : List PyStr) :
    interparts (a :: b :: rest) = a ++ '/' :: interparts (b :: rest) := rfl

theorem interparts_append (as bs : List PyStr) (ha : as ≠ []) (hb : bs ≠ []) :
    interparts (as ++ bs) = interparts as ++ '/' :: interparts bs := by
  induction as with
  | nil => exact absurd rfl ha
  | cons a as ih =>
    cases as with
    | nil =>
      cases bs with
      | nil => exact absurd rfl hb
      | cons b bs2 => simp [interparts_cons_cons, interparts]
    | cons a2 as2 =>
      have h1 : (a :: a2 :: as2) ++ bs = a :: a2 :: (as2 ++ bs) := by simp
      rw [h1, interparts_cons_cons, interparts_cons_cons]
      have h2 : a2 :: (as2 ++ bs) = (a2 :: as2) ++ bs := by simp
      rw [h2, ih (by simp)]
      simp

theorem parseRoot_zero_of_not_slash (k : PyStr)
    (h : (['/'] : PyStr).isPrefixOf k = false) : parseRoot k = 0 := by
  cases k with
  | nil => rfl
  | cons c r =>
    have hc : ¬ (c = '/') := by
      intro hcc
      subst hcc
      simp [List.isPrefixOf] at h
    simp [parseRoot, hc]

theorem parseRoot_ne_zero_of_slash (r : PyStr) : parseRoot ('/' :: r) ≠ 0 := by
  unfold parseRoot
  rw [if_pos (show ('/' :: r).take 1 = (['/'] : PyStr) by simp)]
  split <;> omega

theorem rootChars_slash_head (r : Nat) (hr : r ≠ 0) : ∃ t, rootChars r = '/' :: t := by
  match r with
  | 0 => exact absurd rfl hr
  | 1 => exact ⟨[], rfl⟩
  | n + 2 => exact ⟨['/'], rfl⟩

/-- Structure of a relative key that prints back to itself: its parsed form
has no root, a nonempty segment list, and the key is the joined segments. -/
theorem relative_key_struct (k : PyStr) (hk : pathStr (parsePath k) = k)
    (hk2 : (['/'] : PyStr).isPrefixOf k = false) (hk3 : k ≠ ['.']) :
    parsePath k = ⟨0, parseParts k⟩ ∧ parseParts k ≠ [] ∧ k = interparts (parseParts k) := by
  have hr : parseRoot k = 0 := parseRoot_zero_of_not_slash k hk2
  have h1 : parsePath k = ⟨0, parseParts k⟩ := by rw [parsePath, hr]
  by_cases hps : parseParts k = []
  · exfalso
    rw [parsePath, hr, hps] at hk
    simp [pathStr] at hk
    exact hk3 hk.symm
  · refine ⟨h1, hps, ?_⟩
    conv_lhs => rw [← hk]
    rw [parsePath, hr]
    simp [pathStr, hps, rootChars]

theorem pathStr_root_ne (pp : PyPath) (h : pp.root ≠ 0) :
    pathStr pp = rootChars pp.root ++ interparts pp.parts := by
  unfold pathStr
  rw [if_neg (by simp [h])]

theorem pathStr_parts_ne (pp : PyPath) (h : pp.parts ≠ []) :
    pathStr pp = rootChars pp.root ++ interparts pp.parts := by
  unfold pathStr
  rw [if_neg (by simp [h])]

/-! ### C1 — key resolution roundtrip -/

/-- C1 (amended): for a prefix `p` that is empty or a `Path`-normal form
other than `"."`, and a key `k` that is a `Path`-normal form, does not begin
with `"/"` and is not `"."`, stripping the prefix and one leading separator
from the resolved physical address returns the logical key:
`blobname p (keyname p k) = k`.  (The claim's unrestricted version fails,
e.g. for keys beginning with `"/"`, see `c1_counterexample`.) -/
theorem c1_unresolve_resolve (p k : PyStr)
    (hp : p = [] ∨ (pathStr (parsePath p) = p ∧ p ≠ ['.']))
    (hk : pathStr (parsePath k) = k)
    (hk2 : (['/'] : PyStr).isPrefixOf k = false)
    (hk3 : k ≠ ['.']) :
    blobname p (keyname p k) = k := by
  obtain ⟨h1, hps, hkeq⟩ := relative_key_struct k hk hk2 hk3
  rcases hp with hp | ⟨hpfix, hpdot⟩
  · subst hp
    have hpp : parsePath ([] : PyStr) = ⟨0, []⟩ := rfl
    rw [keyname, hpp, h1]
    have hj : pyJoin ⟨0, []⟩ ⟨0, parseParts k⟩ = ⟨0, parseParts k⟩ := by
      simp [pyJoin]
    rw [hj, ← h1, hk]
    simp [blobname, List.isPrefixOf, hk2]
  · rcases hq : parsePath p with ⟨qr, qps⟩
    rw [hq] at hpfix
    rw [keyname, hq, h1]
    have hj : pyJoin ⟨qr, qps⟩ ⟨0, parseParts k⟩ = ⟨qr, qps ++ parseParts k⟩ := by
      simp [pyJoin]
    rw [hj]
    cases qps with
    | nil =>
      by_cases hqr : qr = 0
      · exfalso
        subst hqr
        simp [pathStr] at hpfix
        exact hpdot hpfix.symm
      · have hp2 : p = rootChars qr := by
          rw [← hpfix, pathStr_root_ne _ (by simpa using hqr)]
          simp [interparts]
        have hkk : pathStr ⟨qr, ([] : List PyStr) ++ parseParts k⟩
            = rootChars qr ++ interparts (parseParts k) := by
          rw [pathStr_root_ne _ (by simpa using hqr)]
          simp
        rw [hkk, ← hp2, ← hkeq]
        simp [blobname, isPrefixOf_append_self, List.drop_left, hk2]
    | cons q1 qrest =>
      have hp2 : p = rootChars qr ++ interparts (q1 :: qrest) := by
        rw [← hpfix, pathStr_parts_ne _ (by simp)]
      have hkk : pathStr ⟨qr, (q1 :: qrest) ++ parseParts k⟩
          = rootChars qr ++ (interparts (q1 :: qrest) ++ '/' :: interparts (parseParts k)) := by
        rw [pathStr_parts_ne _ (by simp)]
        rw [show (⟨qr, (q1 :: qrest) ++ parseParts k⟩ : PyPath).parts
              = (q1 :: qrest) ++ parseParts k from rfl]
        rw [interparts_append _ _ (by simp) hps]
      rw [hkk, ← hkeq]
      have hre : rootChars qr ++ (interparts (q1 :: qrest) ++ '/' :: k) = p ++ '/' :: k := by
        rw [hp2, List.append_assoc]
      rw [hre]
      simp [blobname, isPrefixOf_append_self, List.drop_left, List.isPrefixOf]

/-- C1 counterexample: for the root prefix `"out"` and the logical key
`"/abc"`, `unresolve(p, resolve(p, k))` is `"abc"`, not `k`: the `Path` join
discards the prefix for an absolute key, and `blobname` then strips the
leading separator. -/
theorem c1_counterexample :
    blobname ("out".toList) (keyname ("out".toList) ("/abc".toList)) ≠ ("/abc".toList) := by
  decide

/-- C1 witness: the amended roundtrip at prefix `"out"` and key `"a/b"`. -/
theorem c1_unresolve_resolve_witness :
    blobname ("out".toList) (keyname ("out".toList) ("a/b".toList)) = ("a/b".toList) :=
  c1_unresolve_resolve ("out".toList) ("a/b".toList)
    (Or.inr ⟨by decide, by decide⟩) (by decide) (by decide) (by decide)

/-! ### C10 — keys beginning with the separator -/

/-- C10 (amended): for every logical key beginning with `"/"`, the resolved
physical address is the key as re-printed by `Path` (so the namespace root
prefix is discarded entirely — the prefix does not occur in the result), and
whenever the prefix is nonempty and does not itself begin with `"/"`, the
resolved address does not lie under the prefix.  (The claim's stronger form
"equals that key itself" fails on keys `Path` normalizes, see
`c10_counterexample`.) -/
theorem c10_absolute_key (p k : PyStr) (hk : (['/'] : PyStr).isPrefixOf k = true) :
    keyname p k = pathStr (parsePath k)
    ∧ (p ≠ [] → (['/'] : PyStr).isPrefixOf p = false → p.isPrefixOf (keyname p k) = false) := by
  obtain ⟨k', rfl⟩ : ∃ k', k = '/' :: k' := by
    cases k with
    | nil => simp [List.isPrefixOf] at hk
    | cons c r =>
      simp [List.isPrefixOf] at hk
      exact ⟨r, by rw [← hk]⟩
  have hroot : (parsePath ('/' :: k')).root ≠ 0 := parseRoot_ne_zero_of_slash k'
  have h1 : keyname p ('/' :: k') = pathStr (parsePath ('/' :: k')) := by
    rw [keyname]
    unfold pyJoin
    rw [if_neg hroot]
  obtain ⟨t0, ht0⟩ := rootChars_slash_head _ hroot
  have h2 : keyname p ('/' :: k')
      = '/' :: (t0 ++ interparts (parsePath ('/' :: k')).parts) := by
    rw [h1, pathStr_root_ne _ hroot, ht0, List.cons_append]
  refine ⟨h1, ?_⟩
  intro hp1 hp2
  cases p with
  | nil => exact absurd rfl hp1
  | cons c p' =>
    have hbeq : (c == '/') = false := by
      cases hcb : (c == '/') with
      | false => rfl
      | true =>
        have hcc : c = '/' := eq_of_beq hcb
        subst hcc
        simp [List.isPrefixOf] at hp2
    rw [h2]
    simp [List.isPrefixOf, hbeq]

/-- C10 counterexample: the key `"/a//b"` begins with `"/"`, yet its resolved
address is `"/a/b"` — `Path` collapses the doubled separator, so the address
does not equal the key itself as the claim states. -/
theorem c10_counterexample :
    (['/'] : PyStr).isPrefixOf ("/a//b".toList) = true
    ∧ keyname ("out".toList) ("/a//b".toList) ≠ ("/a//b".toList) := by
  decide

/-- C10 witness: key `"/abc"` under prefix `"out"` resolves to the reprinted
absolute path, and the result is not under the `"out"` prefix. -/
theorem c10_absolute_key_witness :
    keyname ("out".toList) ("/abc".toList) = pathStr (parsePath ("/abc".toList))
    ∧ ("out".toList : PyStr).isPrefixOf (keyname ("out".toList) ("/abc".toList)) = false :=
  ⟨(c10_absolute_key ("out".toList) ("/abc".toList) (by decide)).1,
   (c10_absolute_key ("out".toList) ("/abc".toList) (by decide)).2 (by decide) (by decide)⟩

/-! ### C2 — the `find` example of the spec -/

/-- C2 counterexample: on namespace root `"out"` with the candidate listing
`["out/2021.json", "out/2022.json", "out/notes.txt"]`, `find` with pattern
`(?P<year>\d{4})\.json$` does not yield the two claimed pairs:
`re.Pattern.match` anchors at the start of the blob name, and every
candidate starts with `"out/"`, not with four digits. -/
theorem c2_counterexample :
    (find ("out".toList) matchYearJson none false none (-1) exampleListing).yields
      ≠ [ (("2021.json".toList), [(("year".toList), ("2021".toList))]),
          (("2022.json".toList), [(("year".toList), ("2022".toList))]) ] := by
  decide

/-- C2 (amended): the call of the claim yields no pairs at all, because the
anchored match fails on every candidate; with the pattern anchored to the
listing, `out/(?P<year>\d{4})\.json$`, the same call yields exactly the two
claimed pairs `("2021.json", {year: "2021"})` and
`("2022.json", {year: "2022"})`, in that order. -/
theorem c2_find_example :
    (find ("out".toList) matchYearJson none false none (-1) exampleListing).yields = []
    ∧ (find ("out".toList) matchOutYearJson none false none (-1) exampleListing).yields
      = [ (("2021.json".toList), [(("year".toList), ("2021".toList))]),
          (("2022.json".toList), [(("year".toList), ("2022".toList))]) ] := by
  decide

/-! ### C6 — error asymmetry between `set` and `find` -/

/-- C6: `set` never lets a backend failure escape — for every write outcome,
including every failing one, it returns `None` — while a backend error
raised by the listing call inside `find` aborts the enumeration before
anything is yielded and is re-raised to the caller. -/
theorem c6_error_asymmetry :
    (∀ (write : PyStr → PyStr → Except Unit Unit) (encode : PyStr → PyStr → PyStr)
        (pfx k : PyStr) (value : PyStr ⊕ PyStr) (encoding : Option PyStr),
      set write encode pfx k value encoding = none)
    ∧ (∀ (pat : Pattern) (pfx : PyStr) (bd : Option PyStr) (prog : Bool)
        (ff : Option FieldFilter) (maxCount : Int),
      find pfx pat bd prog ff maxCount (fun _ => Except.error ())
        = ⟨[], [], some FindErr.backendError⟩) := by
  constructor
  · intro write encode pfx k value encoding
    unfold set
    dsimp only
    split <;> rfl
  · intro pat pfx bd prog ff maxCount
    rfl

/-! ### C7 — which encoding `get` decodes with -/

/-- C7 counterexample: on a namespace constructed with default text encoding
`"latin-1"`, `get` with `as_bytes=False` and no explicit encoding decodes
with `"utf-8"` (the probe decoder returns the coding it was handed), not
with the namespace default. -/
theorem c7_counterexample :
    get (fun _ => Except.ok ("b".toList)) (fun coding _ => Except.ok coding)
        ("out".toList) (initEncoding (some ("latin-1".toList))) ("k".toList) false none
      = some ("utf-8".toList)
    ∧ initEncoding (some ("latin-1".toList)) ≠ ("utf-8".toList) := by
  decide

/-- C7 (amended): for every `get` call with `as_bytes=False` and no explicit
encoding, the fetched bytes are decoded with the hard-coded `"utf-8"`,
whatever default text encoding the namespace was constructed with — the
coding handed to `bytes.decode` is `"utf-8"` for every namespace default and
every fetched payload. -/
theorem c7_get_coding :
    ∀ (nsEncoding blobData pfx k : PyStr),
      get (fun _ => Except.ok blobData) (fun coding _ => Except.ok coding)
          pfx nsEncoding k false none
        = some ("utf-8".toList) := by
  intro nsEncoding blobData pfx k
  rfl

/-! ### Branch unfoldings of the `find` loop -/

theorem findGo_nil (pat : Pattern) (bdS pfx : PyStr) (ff : Option FieldFilter)
    (m : Int) (T : Nat) (prog : Bool) (l f : Nat) :
    findGo pat bdS pfx ff m T prog [] l f = ⟨[], [], none⟩ := rfl

theorem findGo_cons_nomatch (pat : Pattern) (bdS pfx : PyStr) (ff : Option FieldFilter)
    (m : Int) (T : Nat) (prog : Bool) (b : PyStr) (rest : List PyStr) (l f : Nat)
    (h : pat b = none) :
    findGo pat bdS pfx ff m T prog (b :: rest) l f
      = ⟨(findGo pat bdS pfx ff m T prog rest l (f + 1)).yields,
         progEmit prog l (f + 1) T ++ (findGo pat bdS pfx ff m T prog rest l (f + 1)).events,
         (findGo pat bdS pfx ff m T prog rest l (f + 1)).err⟩ := by
  simp [findGo, h]

theorem findGo_cons_oob (pat : Pattern) (bdS pfx : PyStr) (ff : Option FieldFilter)
    (m : Int) (T : Nat) (prog : Bool) (b : PyStr) (rest : List PyStr) (l f : Nat)
    (g : Groups) (h : pat b = some g) (hb : bdS.isPrefixOf b = false) :
    findGo pat bdS pfx ff m T prog (b :: rest) l f
      = ⟨(findGo pat bdS pfx ff m T prog rest l (f + 1)).yields,
         progEmit prog l (f + 1) T ++ (findGo pat bdS pfx ff m T prog rest l (f + 1)).events,
         (findGo pat bdS pfx ff m T prog rest l (f + 1)).err⟩ := by
  simp [findGo, h, hb]

theorem findGo_cons_err (pat : Pattern) (bdS pfx : PyStr) (ff : Option FieldFilter)
    (m : Int) (T : Nat) (prog : Bool) (b : PyStr) (rest : List PyStr) (l f : Nat)
    (g : Groups) (h : pat b = some g) (hb : bdS.isPrefixOf b = true)
    (hf : item_filter ff g = Except.error ()) :
    findGo pat bdS pfx ff m T prog (b :: rest) l f = ⟨[], [], some FindErr.keyError⟩ := by
  simp [findGo, h, hb, hf]

theorem findGo_cons_filtered (pat : Pattern) (bdS pfx : PyStr) (ff : Option FieldFilter)
    (m : Int) (T : Nat) (prog : Bool) (b : PyStr) (rest : List PyStr) (l f : Nat)
    (g : Groups) (h : pat b = some g) (hb : bdS.isPrefixOf b = true)
    (hf : item_filter ff g = Except.ok false) :
    findGo pat bdS pfx ff m T prog (b :: rest) l f
      = ⟨(findGo pat bdS pfx ff m T prog rest l (f + 1)).yields,
         progEmit prog l (f + 1) T ++ (findGo pat bdS pfx ff m T prog rest l (f + 1)).events,
         (findGo pat bdS pfx ff m T prog rest l (f + 1)).err⟩ := by
  simp [findGo, h, hb, hf]

theorem findGo_cons_yield_break (pat : Pattern) (bdS pfx : PyStr) (ff : Option FieldFilter)
    (m : Int) (T : Nat) (prog : Bool) (b : PyStr) (rest : List PyStr) (l f : Nat)
    (g : Groups) (h : pat b = some g) (hb : bdS.isPrefixOf b = true)
    (hf : item_filter ff g = Except.ok true)
    (hm : 0 < m ∧ m ≤ ((l + 1 : Nat) : Int)) :
    findGo pat bdS pfx ff m T prog (b :: rest) l f = ⟨[(blobname pfx b, g)], [], none⟩ := by
  rw [findGo]
  simp only [h, hb, hf]
  rw [if_pos hm]

theorem findGo_cons_yield_cont (pat : Pattern) (bdS pfx : PyStr) (ff : Option FieldFilter)
    (m : Int) (T : Nat) (prog : Bool) (b : PyStr) (rest : List PyStr) (l f : Nat)
    (g : Groups) (h : pat b = some g) (hb : bdS.isPrefixOf b = true)
    (hf : item_filter ff g = Except.ok true)
    (hm : ¬ (0 < m ∧ m ≤ ((l + 1 : Nat) : Int))) :
    findGo pat bdS pfx ff m T prog (b :: rest) l f
      = ⟨(blobname pfx b, g) :: (findGo pat bdS pfx ff m T prog rest (l + 1) f).yields,
         progEmit prog (l + 1) f T ++ (findGo pat bdS pfx ff m T prog rest (l + 1) f).events,
         (findGo pat bdS pfx ff m T prog rest (l + 1) f).err⟩ := by
  rw [findGo]
  simp only [h, hb, hf]
  rw [if_neg hm]

/-! ### C9 — `find` with `base_dir` omitted -/

/-- C9: with `base_dir` omitted, `find` defaults it to the empty string
(`base_dir or ""`), requests the backend listing with the empty prefix, and
filters with the empty-string prefix test, which accepts everything — so a
listed blob matching the pattern is yielded even when it does not lie under
the namespace's root prefix (the witness instantiates this with a blob
outside the `"out"` prefix). -/
theorem c9_default_base_dir (pfx : PyStr) (pat : Pattern) (b : PyStr) (g : Groups)
    (listing : PyStr → Except Unit (List PyStr)) (prog : Bool) (m : Int)
    (hl : listing [] = Except.ok [b]) (hpat : pat b = some g) (hm : m ≤ 0) :
    pyOrStr none [] = ([] : PyStr)
    ∧ (find pfx pat none prog none m listing).yields = [(blobname pfx b, g)] := by
  refine ⟨rfl, ?_⟩
  unfold find
  dsimp only
  rw [show pyOrStr none ([] : PyStr) = ([] : PyStr) from rfl, hl]
  dsimp only
  rw [findGo_cons_yield_cont pat ([] : PyStr) pfx none m (List.length [b]) prog b [] 0 0 g hpat
    (by simp [List.isPrefixOf]) rfl (by push_cast; omega)]
  rw [findGo_nil]

/-- C9 witness: on a namespace with root prefix `"out"`, `find` with
`base_dir` omitted yields the blob `"other/x"`, which is not under the
namespace's root prefix. -/
theorem c9_default_base_dir_witness :
    (find ("out".toList) (fun s => if s == ("other/x".toList) then some [] else none)
        none false none (-1) (fun _ => Except.ok [("other/x".toList)])).yields
      = [(blobname ("out".toList) ("other/x".toList), ([] : Groups))]
    ∧ ("out".toList : PyStr).isPrefixOf ("other/x".toList) = false :=
  ⟨(c9_default_base_dir ("out".toList)
      (fun s => if s == ("other/x".toList) then some [] else none)
      ("other/x".toList) ([] : Groups)
      (fun _ => Except.ok [("other/x".toList)]) false (-1)
      rfl (by decide) (by decide)).2,
   by decide⟩

/-! ### C5 — scope of `clear` -/

/-- C5 counterexample: namespaces with the distinct root prefixes `"out"`
and `"out2"` over a bucket holding `"out/a"` and `"out2/b"`: `clear()` on
the `"out"` namespace lists with the raw string prefix `"out"` and therefore
also deletes the sibling's object `"out2/b"` (the address the sibling
resolves for its key `"b"`), leaving nothing behind. -/
theorem c5_counterexample :
    clearRemaining ("out".toList) [("out/a".toList), ("out2/b".toList)] = []
    ∧ keyname ("out2".toList) ("b".toList) = ("out2/b".toList)
    ∧ ("out".toList : PyStr) ≠ ("out2".toList) := by
  decide

/-- C5 (amended): `clear()` deletes exactly the objects whose physical
address has the namespace's root prefix as a raw string prefix; an object of
a sibling namespace — an address of the form `q ++ "/" ++ k` — survives
whenever `p` is not a string prefix of `q` and `q ++ "/"` is not a string
prefix of `p` (true path-separated siblings).  Without that proviso a
sibling whose prefix extends this one's (e.g. `"out"` vs `"out2"`) is also
cleared, see `c5_counterexample`. -/
theorem c5_clear_scope (p q k b : PyStr) (store : List PyStr)
    (h1 : p.isPrefixOf q = false) (h2 : (q ++ ['/']).isPrefixOf p = false) :
    (∀ s, s ∈ clearDeleted p store ↔ s ∈ store ∧ p.isPrefixOf s = true)
    ∧ (b ∈ store → b = (q ++ ['/']) ++ k → b ∈ clearRemaining p store) := by
  constructor
  · intro s
    simp [clearDeleted, listBlobs, List.mem_filter]
  · intro hb hbe
    subst hbe
    have hp : p.isPrefixOf ((q ++ ['/']) ++ k) = false := by
      cases hc : p.isPrefixOf ((q ++ ['/']) ++ k) with
      | false => rfl
      | true =>
        rcases isPrefixOf_of_append_sep p q k hc with hx | hx
        · rw [hx] at h1
          exact Bool.noConfusion h1
        · rw [hx] at h2
          exact Bool.noConfusion h2
    have hb2 : q ++ '/' :: k ∈ store := by simpa using hb
    have hp2 : p.isPrefixOf (q ++ '/' :: k) = false := by simpa using hp
    simp [clearRemaining, List.mem_filter, hb2, hp2]

/-- C5 witness: over the bucket `["a/x/f1", "a/y/f2"]`, `clear()` on the
`"a/x"` namespace leaves the `"a/y"` sibling's object in place. -/
theorem c5_clear_scope_witness :
    ("a/y/f2".toList) ∈ clearRemaining ("a/x".toList) [("a/x/f1".toList), ("a/y/f2".toList)] :=
  (c5_clear_scope ("a/x".toList) ("a/y".toList) ("f2".toList) ("a/y/f2".toList)
      [("a/x/f1".toList), ("a/y/f2".toList)] (by decide) (by decide)).2
    (by decide) (by decide)

/-! ### C3 — `max_results` truncation -/

/-- The loop invariant behind C3: starting from any `num_loaded` accumulator
below a positive cap `n`, the capped run yields the first `n - num_loaded`
elements of the run with a non-positive (unbounded) cap, and at most that
many. -/
theorem findGo_truncation (pat : Pattern) (bdS pfx : PyStr) (ff : Option FieldFilter)
    (T : Nat) (prog : Bool) (n m : Int) (hn : 0 < n) (hm : m ≤ 0) :
    ∀ (blobs : List PyStr) (l f : Nat), (l : Int) < n →
      (findGo pat bdS pfx ff n T prog blobs l f).yields
          = ((findGo pat bdS pfx ff m T prog blobs l f).yields.take (n - (l : Int)).toNat)
      ∧ (((findGo pat bdS pfx ff n T prog blobs l f).yields.length : Int) ≤ n - (l : Int)) := by
  intro blobs
  induction blobs with
  | nil =>
    intro l f hl
    rw [findGo_nil, findGo_nil]
    refine ⟨by simp, by simp; omega⟩
  | cons b rest ih =>
    intro l f hl
    cases hpat : pat b with
    | none =>
      rw [findGo_cons_nomatch pat bdS pfx ff n T prog b rest l f hpat,
          findGo_cons_nomatch pat bdS pfx ff m T prog b rest l f hpat]
      exact ih l (f + 1) hl
    | some g =>
      cases hb : bdS.isPrefixOf b with
      | false =>
        rw [findGo_cons_oob pat bdS pfx ff n T prog b rest l f g hpat hb,
            findGo_cons_oob pat bdS pfx ff m T prog b rest l f g hpat hb]
        exact ih l (f + 1) hl
      | true =>
        cases hf : item_filter ff g with
        | error e =>
          cases e
          rw [findGo_cons_err pat bdS pfx ff n T prog b rest l f g hpat hb hf,
              findGo_cons_err pat bdS pfx ff m T prog b rest l f g hpat hb hf]
          refine ⟨by simp, by simp; omega⟩
        | ok tv =>
          cases tv with
          | false =>
            rw [findGo_cons_filtered pat bdS pfx ff n T prog b rest l f g hpat hb hf,
                findGo_cons_filtered pat bdS pfx ff m T prog b rest l f g hpat hb hf]
            exact ih l (f + 1) hl
          | true =>
            have hmm : ¬ (0 < m ∧ m ≤ ((l + 1 : Nat) : Int)) := by
              push_cast
              omega
            rw [findGo_cons_yield_cont pat bdS pfx ff m T prog b rest l f g hpat hb hf hmm]
            by_cases hm2 : 0 < n ∧ n ≤ ((l + 1 : Nat) : Int)
            · rw [findGo_cons_yield_break pat bdS pfx ff n T prog b rest l f g hpat hb hf hm2]
              dsimp only
              have hnl : (n - (l : Int)).toNat = 1 := by
                push_cast at hm2
                omega
              rw [hnl]
              refine ⟨by simp, ?_⟩
              simp
              omega
            · rw [findGo_cons_yield_cont pat bdS pfx ff n T prog b rest l f g hpat hb hf hm2]
              dsimp only
              have hl1 : ((l + 1 : Nat) : Int) < n := by
                push_cast at hm2 ⊢
                omega
              obtain ⟨ih1, ih2⟩ := ih (l + 1) f hl1
              have hnn : (n - (l : Int)).toNat = (n - ((l + 1 : Nat) : Int)).toNat + 1 := by
                push_cast
                omega
              constructor
              · rw [ih1, hnn, List.take_succ_cons]
              · simp only [List.length_cons]
                push_cast at ih2 ⊢
                omega

/-- C3: for every candidate listing, pattern and `n > 0`, `find` with
`max_count = n` yields at most `n` matches, and its yield sequence equals
the first `n` elements of the yield sequence of `find` with a non-positive
(unbounded) `max_count` over the same listing, in the same order. -/
theorem c3_max_count (pat : Pattern) (pfx : PyStr) (bd : Option PyStr) (prog : Bool)
    (ff : Option FieldFilter) (listing : PyStr → Except Unit (List PyStr))
    (n m : Int) (hn : 0 < n) (hm : m ≤ 0) :
    (((find pfx pat bd prog ff n listing).yields.length : Int) ≤ n)
    ∧ (find pfx pat bd prog ff n listing).yields
        = (find pfx pat bd prog ff m listing).yields.take n.toNat := by
  unfold find
  dsimp only
  cases hl : listing (pyOrStr bd []) with
  | error e =>
    refine ⟨by simp; omega, by simp⟩
  | ok blobs =>
    obtain ⟨h1, h2⟩ := findGo_truncation pat (pyOrStr bd []) pfx ff blobs.length prog n m hn hm
      blobs 0 0 (by push_cast; omega)
    dsimp only
    constructor
    · simpa using h2
    · simpa using h1

/-- C3 witness: a cap of `2` over three all-matching candidates yields the
first two yields of the unbounded run. -/
theorem c3_max_count_witness :
    (((find ([] : PyStr) (fun _ => some []) none false none 2
        (fun _ => Except.ok [("a".toList), ("b".toList), ("c".toList)])).yields.length : Int) ≤ 2)
    ∧ (find ([] : PyStr) (fun _ => some []) none false none 2
        (fun _ => Except.ok [("a".toList), ("b".toList), ("c".toList)])).yields
      = (find ([] : PyStr) (fun _ => some []) none false none (-1)
          (fun _ => Except.ok [("a".toList), ("b".toList), ("c".toList)])).yields.take (2 : Int).toNat :=
  c3_max_count (fun _ => some []) ([] : PyStr) none false none
    (fun _ => Except.ok [("a".toList), ("b".toList), ("c".toList)]) 2 (-1)
    (by decide) (by decide)

/-! ### C4 — progress reporting -/

/-- The loop invariant behind C4: with a progress sink supplied, the emitted
statuses carry `completed_items` counting consecutively from
`num_loaded + num_filtered + 1`, each carries `total_items = num_total`, at
most one status is emitted per candidate, and a run that terminates without
error and without hitting the `max_count` break emits exactly one status per
candidate. -/
theorem findGo_events_spec (pat : Pattern) (bdS pfx : PyStr) (ff : Option FieldFilter)
    (m : Int) (T : Nat) :
    ∀ (blobs : List PyStr) (l f : Nat),
      ((findGo pat bdS pfx ff m T true blobs l f).events.map (fun e => e.completed_items)
          = natsFrom (l + f + 1) (findGo pat bdS pfx ff m T true blobs l f).events.length)
      ∧ (∀ e ∈ (findGo pat bdS pfx ff m T true blobs l f).events, e.total_items = T)
      ∧ ((findGo pat bdS pfx ff m T true blobs l f).events.length ≤ blobs.length)
      ∧ ((findGo pat bdS pfx ff m T true blobs l f).err = none →
          (m ≤ 0 ∨ ((l + (findGo pat bdS pfx ff m T true blobs l f).yields.length : Nat) : Int) < m) →
          (findGo pat bdS pfx ff m T true blobs l f).events.length = blobs.length) := by
  intro blobs
  induction blobs with
  | nil =>
    intro l f
    rw [findGo_nil]
    exact ⟨rfl, by simp, by simp, fun _ _ => rfl⟩
  | cons b rest ih =>
    intro l f
    have skip : ∀ (hrw : findGo pat bdS pfx ff m T true (b :: rest) l f
        = ⟨(findGo pat bdS pfx ff m T true rest l (f + 1)).yields,
           progEmit true l (f + 1) T ++ (findGo pat bdS pfx ff m T true rest l (f + 1)).events,
           (findGo pat bdS pfx ff m T true rest l (f + 1)).err⟩),
        ((findGo pat bdS pfx ff m T true (b :: rest) l f).events.map (fun e => e.completed_items)
            = natsFrom (l + f + 1) (findGo pat bdS pfx ff m T true (b :: rest) l f).events.length)
        ∧ (∀ e ∈ (findGo pat bdS pfx ff m T true (b :: rest) l f).events, e.total_items = T)
        ∧ ((findGo pat bdS pfx ff m T true (b :: rest) l f).events.length ≤ (b :: rest).length)
        ∧ ((findGo pat bdS pfx ff m T true (b :: rest) l f).err = none →
            (m ≤ 0 ∨ ((l + (findGo pat bdS pfx ff m T true (b :: rest) l f).yields.length : Nat) : Int) < m) →
            (findGo pat bdS pfx ff m T true (b :: rest) l f).events.length = (b :: rest).length) := by
      intro hrw
      obtain ⟨ih1, ih2, ih3, ih4⟩ := ih l (f + 1)
      rw [hrw]
      dsimp only
      refine ⟨?_, ?_, ?_, ?_⟩
      · simp only [progEmit, if_pos, List.singleton_append, List.map_cons, List.length_cons]
        rw [ih1]
        rfl
      · intro e he
        simp only [progEmit, if_pos, List.singleton_append, List.mem_cons] at he
        rcases he with he | he
        · rw [he]
          rfl
        · exact ih2 e he
      · simp only [progEmit, if_pos, List.singleton_append, List.length_cons, List.length_cons]
        omega
      · intro h1 h2
        simp only [progEmit, if_pos, List.singleton_append, List.length_cons, List.length_cons]
        rw [ih4 h1 h2]
    cases hpat : pat b with
    | none => exact skip (findGo_cons_nomatch pat bdS pfx ff m T true b rest l f hpat)
    | some g =>
      cases hb : bdS.isPrefixOf b with
      | false => exact skip (findGo_cons_oob pat bdS pfx ff m T true b rest l f g hpat hb)
      | true =>
        cases hf : item_filter ff g with
        | error e =>
          cases e
          rw [findGo_cons_err pat bdS pfx ff m T true b rest l f g hpat hb hf]
          refine ⟨rfl, by simp, by simp, ?_⟩
          intro h1
          exact absurd h1 (by simp)
        | ok tv =>
          cases tv with
          | false => exact skip (findGo_cons_filtered pat bdS pfx ff m T true b rest l f g hpat hb hf)
          | true =>
            by_cases hm2 : 0 < m ∧ m ≤ ((l + 1 : Nat) : Int)
            · rw [findGo_cons_yield_break pat bdS pfx ff m T true b rest l f g hpat hb hf hm2]
              refine ⟨rfl, by simp, by simp, ?_⟩
              intro h1 h2
              exfalso
              push_cast at hm2 h2
              simp only [List.length_cons, List.length_nil] at h2
              omega
            · rw [findGo_cons_yield_cont pat bdS pfx ff m T true b rest l f g hpat hb hf hm2]
              obtain ⟨ih1, ih2, ih3, ih4⟩ := ih (l + 1) f
              dsimp only
              have hx : l + 1 + f = l + f + 1 := by omega
              refine ⟨?_, ?_, ?_, ?_⟩
              · simp only [progEmit, if_pos, List.singleton_append, List.map_cons, List.length_cons]
                rw [ih1]
                have hc : (create_progress_status (l + 1) f T).completed_items = l + f + 1 := by
                  show l + 1 + f = l + f + 1
                  omega
                rw [hc]
                simp only [hx]
                rfl
              · intro e he
                simp only [progEmit, if_pos, List.singleton_append, List.mem_cons] at he
                rcases he with he | he
                · rw [he]
                  rfl
                · exact ih2 e he
              · simp only [progEmit, if_pos, List.singleton_append, List.length_cons, List.length_cons]
                omega
              · intro h1 h2
                simp only [progEmit, if_pos, List.singleton_append, List.length_cons, List.length_cons]
                rw [ih4 h1 ?_]
                rcases h2 with h2 | h2
                · exact Or.inl h2
                · right
                  simp only [List.length_cons] at h2
                  push_cast at h2 ⊢
                  omega

/-- C4 (amended): with a progress sink supplied, each emitted ProgressStatus
has `total` equal to the size of the original candidate listing and
`completed = matched + filtered`, the `completed` values counting the
candidates evaluated so far (1, 2, ...); the sink is invoked at most once
per candidate, and exactly once per candidate when the enumeration ends
without error and without `max_results` truncation.  The claim's stronger
"after each candidate evaluated" fails: the candidate that triggers
truncation is evaluated and yielded, but the `break` precedes the progress
call, so no status is emitted for it (see `c4_counterexample`). -/
theorem c4_progress (pat : Pattern) (pfx : PyStr) (bd : Option PyStr)
    (ff : Option FieldFilter) (m : Int) (listing : PyStr → Except Unit (List PyStr))
    (blobs : List PyStr) (hl : listing (pyOrStr bd []) = Except.ok blobs) :
    ((find pfx pat bd true ff m listing).events.map (fun e => e.completed_items)
        = natsFrom 1 (find pfx pat bd true ff m listing).events.length)
    ∧ (∀ e ∈ (find pfx pat bd true ff m listing).events, e.total_items = blobs.length)
    ∧ ((find pfx pat bd true ff m listing).events.length ≤ blobs.length)
    ∧ ((find pfx pat bd true ff m listing).err = none →
        (m ≤ 0 ∨ (((find pfx pat bd true ff m listing).yields.length : Nat) : Int) < m) →
        (find pfx pat bd true ff m listing).events.length = blobs.length) := by
  unfold find
  dsimp only
  rw [hl]
  dsimp only
  have h := findGo_events_spec pat (pyOrStr bd []) pfx ff m blobs.length blobs 0 0
  simpa using h

/-- C4 counterexample: one candidate, `max_count = 1`, sink supplied: the
candidate is evaluated (and yielded), yet no ProgressStatus is emitted,
because the truncation `break` comes before the progress call. -/
theorem c4_counterexample :
    (find ([] : PyStr) (fun _ => some []) none true none 1
        (fun _ => Except.ok [("a".toList)])).yields.length = 1
    ∧ (find ([] : PyStr) (fun _ => some []) none true none 1
        (fun _ => Except.ok [("a".toList)])).events = [] := by
  decide

/-- C4 witness: an unbounded error-free run over two candidates invokes the
sink exactly twice. -/
theorem c4_progress_witness :
    (find ([] : PyStr) (fun _ => some []) none true none (-1)
        (fun _ => Except.ok [("a".toList), ("b".toList)])).events.length = 2 :=
  (c4_progress (fun _ => some []) ([] : PyStr) none none (-1)
      (fun _ => Except.ok [("a".toList), ("b".toList)]) [("a".toList), ("b".toList)] rfl).2.2.2
    (by decide) (Or.inl (by decide))


/-! ### C8 — field filtering -/

/-- Whether every `(field, pattern)` pair of a field filter has its field
present in the groupdict with a from-start-matching value. -/
def allMatch (fs : FieldFilter) (item : Groups) : Bool :=
  fs.all (fun kp =>
    match lookupGroup item kp.1 with
    | some v => kp.2 v
    | none => false)

/-- `item_filter` accepts a candidate exactly when every filter pair finds
its field and matches its value. -/
theorem itemFilterGo_ok_true_iff (item : Groups) (fs : FieldFilter) :
    itemFilterGo item fs = Except.ok true ↔ allMatch fs item = true := by
  induction fs with
  | nil => simp [itemFilterGo, allMatch]
  | cons kp rest ih =>
    obtain ⟨k, pr⟩ := kp
    cases hl : lookupGroup item k with
    | none => simp [itemFilterGo, allMatch, hl]
    | some v =>
      cases hv : pr v with
      | false => simp [itemFilterGo, allMatch, hl, hv]
      | true => simp [itemFilterGo, allMatch, hl, hv, ih]

/-- `item_filter` raises `KeyError` exactly when, scanning the filter pairs
in dict order, the first pair that does not match fails because its field is
absent from the groupdict (every earlier pair present and matching). -/
theorem itemFilterGo_error_iff (item : Groups) (fs : FieldFilter) :
    itemFilterGo item fs = Except.error () ↔
      ∃ pre k pr post, fs = pre ++ (k, pr) :: post ∧ allMatch pre item = true
        ∧ lookupGroup item k = none := by
  induction fs with
  | nil => simp [itemFilterGo]
  | cons kp rest ih =>
    obtain ⟨k0, p0⟩ := kp
    cases hl : lookupGroup item k0 with
    | none =>
      constructor
      · intro _
        exact ⟨[], k0, p0, rest, rfl, rfl, hl⟩
      · intro _
        simp [itemFilterGo, hl]
    | some v =>
      cases hv : p0 v with
      | false =>
        constructor
        · intro h
          simp [itemFilterGo, hl, hv] at h
        · rintro ⟨pre, k, pr, post, he, ha, hn⟩
          exfalso
          cases pre with
          | nil =>
            simp only [List.nil_append, List.cons.injEq, Prod.mk.injEq] at he
            obtain ⟨⟨hk, hp⟩, hrest⟩ := he
            subst hk
            rw [hl] at hn
            exact Option.noConfusion hn
          | cons q pre2 =>
            simp only [List.cons_append, List.cons.injEq] at he
            obtain ⟨hq, hrest⟩ := he
            rw [← hq] at ha
            simp [allMatch, hl] at ha
            rw [ha.1] at hv
            exact Bool.noConfusion hv
      | true =>
        have hstep : itemFilterGo item ((k0, p0) :: rest) = itemFilterGo item rest := by
          simp [itemFilterGo, hl, hv]
        rw [hstep, ih]
        constructor
        · rintro ⟨pre, k, pr, post, he, ha, hn⟩
          refine ⟨(k0, p0) :: pre, k, pr, post, by rw [List.cons_append, he], ?_, hn⟩
          simp [allMatch, hl, hv]
          simpa [allMatch] using ha
        · rintro ⟨pre, k, pr, post, he, ha, hn⟩
          cases pre with
          | nil =>
            simp only [List.nil_append, List.cons.injEq, Prod.mk.injEq] at he
            obtain ⟨⟨hk, hp⟩, hrest⟩ := he
            subst hk
            rw [hl] at hn
            exact Option.noConfusion hn
          | cons q pre2 =>
            simp only [List.cons_append, List.cons.injEq] at he
            obtain ⟨hq, hrest⟩ := he
            refine ⟨pre2, k, pr, post, hrest, ?_, hn⟩
            rw [← hq] at ha
            simp [allMatch, hl, hv] at ha
            simpa [allMatch] using ha

/-- Every pair yielded by the `find` loop under a field filter passed the
whole filter. -/
theorem findGo_yields_filter (pat : Pattern) (bdS pfx : PyStr) (fs : FieldFilter)
    (m : Int) (T : Nat) (prog : Bool) :
    ∀ (blobs : List PyStr) (l f : Nat) (nm : PyStr) (g : Groups),
      (nm, g) ∈ (findGo pat bdS pfx (some fs) m T prog blobs l f).yields →
      allMatch fs g = true := by
  intro blobs
  induction blobs with
  | nil =>
    intro l f nm g h
    rw [findGo_nil] at h
    simp at h
  | cons b rest ih =>
    intro l f nm g h
    cases hpat : pat b with
    | none =>
      rw [findGo_cons_nomatch pat bdS pfx (some fs) m T prog b rest l f hpat] at h
      exact ih l (f + 1) nm g h
    | some g0 =>
      cases hb : bdS.isPrefixOf b with
      | false =>
        rw [findGo_cons_oob pat bdS pfx (some fs) m T prog b rest l f g0 hpat hb] at h
        exact ih l (f + 1) nm g h
      | true =>
        cases hf : item_filter (some fs) g0 with
        | error e =>
          cases e
          rw [findGo_cons_err pat bdS pfx (some fs) m T prog b rest l f g0 hpat hb hf] at h
          simp at h
        | ok tv =>
          cases tv with
          | false =>
            rw [findGo_cons_filtered pat bdS pfx (some fs) m T prog b rest l f g0 hpat hb hf] at h
            exact ih l (f + 1) nm g h
          | true =>
            have hall : allMatch fs g0 = true := by
              rw [← itemFilterGo_ok_true_iff]
              simpa [item_filter] using hf
            by_cases hm2 : 0 < m ∧ m ≤ ((l + 1 : Nat) : Int)
            · rw [findGo_cons_yield_break pat bdS pfx (some fs) m T prog b rest l f g0 hpat hb hf hm2] at h
              simp at h
              rw [h.2]
              exact hall
            · rw [findGo_cons_yield_cont pat bdS pfx (some fs) m T prog b rest l f g0 hpat hb hf hm2] at h
              rcases List.mem_cons.mp h with h1 | h1
              · rw [(Prod.mk.injEq _ _ _ _).mp h1 |>.2]
                exact hall
              · exact ih (l + 1) f nm g h1

/-- C8 (amended): with a field_filter supplied, a candidate whose base
pattern matches is yielded only if every `(field, pattern)` pair matches the
corresponding named-capture value (`allMatch`); the pairs are evaluated
lazily in dict order, and a lookup failure — fatal for the whole call — is
raised precisely when the first non-matching pair in that order has its
field absent from the captured groups.  The claim's unconditional "absent
field is a lookup failure" fails: a pair that does not match, placed before
the absent field, short-circuits `all(...)` and the candidate is silently
excluded with no error (see `c8_counterexample`). -/
theorem c8_field_filter :
    (∀ (item : Groups) (fs : FieldFilter),
        itemFilterGo item fs = Except.ok true ↔ allMatch fs item = true)
    ∧ (∀ (item : Groups) (fs : FieldFilter),
        itemFilterGo item fs = Except.error () ↔
          ∃ pre k pr post, fs = pre ++ (k, pr) :: post ∧ allMatch pre item = true
            ∧ lookupGroup item k = none)
    ∧ (∀ (pat : Pattern) (pfx : PyStr) (bd : Option PyStr) (prog : Bool)
        (fs : FieldFilter) (m : Int) (listing : PyStr → Except Unit (List PyStr))
        (nm : PyStr) (g : Groups),
        (nm, g) ∈ (find pfx pat bd prog (some fs) m listing).yields →
        allMatch fs g = true) := by
  refine ⟨itemFilterGo_ok_true_iff, itemFilterGo_error_iff, ?_⟩
  intro pat pfx bd prog fs m listing nm g h
  unfold find at h
  dsimp only at h
  cases hlst : listing (pyOrStr bd []) with
  | error e =>
    rw [hlst] at h
    simp at h
  | ok blobs =>
    rw [hlst] at h
    exact findGo_yields_filter pat (pyOrStr bd []) pfx fs m blobs.length prog blobs 0 0 nm g h

/-- C8 counterexample: groupdict `{a: "x"}`, filter
`{a: <never matches>, b: <always matches>}`: the field `b` is absent from
the captured groups, yet `find` completes without any error and the
candidate is silently excluded — no lookup failure is raised, because
`all(...)` short-circuits on the failing `a` pair first. -/
theorem c8_counterexample :
    (find ([] : PyStr) (fun _ => some [(("a".toList), ("x".toList))]) none false
        (some [(("a".toList), fun _ => false), (("b".toList), fun _ => true)]) (-1)
        (fun _ => Except.ok [("f1".toList)])).err = none
    ∧ (find ([] : PyStr) (fun _ => some [(("a".toList), ("x".toList))]) none false
        (some [(("a".toList), fun _ => false), (("b".toList), fun _ => true)]) (-1)
        (fun _ => Except.ok [("f1".toList)])).yields = []
    ∧ lookupGroup [(("a".toList), ("x".toList))] ("b".toList) = none := by
  decide

/-- C8 witness: a one-pair filter whose field is present and matches is
accepted by `item_filter`. -/
theorem c8_field_filter_witness :
    itemFilterGo [(("a".toList), ("x".toList))] [(("a".toList), fun _ => true)]
      = Except.ok true :=
  (c8_field_filter.1 [(("a".toList), ("x".toList))] [(("a".toList), fun _ => true)]).mpr
    (by decide)

end GcsStorage
